import Mathlib

/-!
Verification of the in-memory task store and HTTP request dispatcher of the
`go-todo-app` repository (files `models/task.go`, `handlers/api.go`,
`main.go`), as a shallow embedding in Lean 4.

Modelling conventions:
* Go `int` fields (`Task.ID`, `TodoApp.nextID`) are modelled as `Int`
  (64-bit overflow never arises in any bounded execution considered here).
* Go strings are byte sequences; we model a Go string as `List Char` where
  each element stands for one byte.  All string literals appearing in the
  code (`"/api/tasks/"`, `"/toggle"`, digits, signs) are ASCII, for which
  `String.toList` yields exactly the byte sequence.
* Go slice expressions `s[i:]` / `s[:j]` panic when the index is out of
  range (in particular when it is negative); they are modelled as
  `Option`-returning functions, `none` standing for the panic.
* The `sync.RWMutex` serialises the four store operations; the sequential
  model below therefore describes each operation as an atomic function on
  the store state, and reachability as the sequences of such operations.
-/

namespace TodoModel

/-- `Task` from `models/task.go`: ID, Title, Completed. -/
structure Task where
  ID : Int
  Title : List Char
  Completed : Bool
  deriving Repr, DecidableEq

/-- `TodoApp` from `models/task.go`: the task collection and the next-ID
counter (the mutex is represented by the atomicity of the operations). -/
structure TodoApp where
  tasks : List Task
  nextID : Int
  deriving Repr, DecidableEq

/-- `NewTodoApp` from `models/task.go`: empty collection, next-ID 1. -/
def NewTodoApp : TodoApp := { tasks := [], nextID := 1 }

/-- `AddTask` from `models/task.go`: build the task from the current
next-ID, append it, bump the counter, return the new state and the task. -/
def AddTask (app : TodoApp) (title : List Char) : TodoApp × Task :=
  let task : Task := { ID := app.nextID, Title := title, Completed := false }
  ({ tasks := app.tasks ++ [task], nextID := app.nextID + 1 }, task)

/-- `GetTasks` from `models/task.go`: the returned snapshot's contents
(the defensive copy into fresh storage is modelled separately by the
heap-level functions below). -/
def GetTasks (app : TodoApp) : List Task := app.tasks

/-- The loop body of `ToggleTask`: walk the list, flip the completed flag
of the first task whose ID matches, report whether one was found. -/
def toggleGo : List Task → Int → List Task × Bool
  | [], _ => ([], false)
  | t :: ts, id =>
    if t.ID = id then
      ({ t with Completed := !t.Completed } :: ts, true)
    else
      let r := toggleGo ts id
      (t :: r.1, r.2)

/-- `ToggleTask` from `models/task.go`. -/
def ToggleTask (app : TodoApp) (id : Int) : TodoApp × Bool :=
  let r := toggleGo app.tasks id
  ({ app with tasks := r.1 }, r.2)

/-- The loop body of `DeleteTask`: remove the first task whose ID matches
(`append(tasks[:i], tasks[i+1:]...)`), report whether one was found. -/
def deleteGo : List Task → Int → List Task × Bool
  | [], _ => ([], false)
  | t :: ts, id =>
    if t.ID = id then
      (ts, true)
    else
      let r := deleteGo ts id
      (t :: r.1, r.2)

/-- `DeleteTask` from `models/task.go`. -/
def DeleteTask (app : TodoApp) (id : Int) : TodoApp × Bool :=
  let r := deleteGo app.tasks id
  ({ app with tasks := r.1 }, r.2)

/-- One store operation, as fired by the handlers. -/
inductive Step : TodoApp → TodoApp → Prop
  | add (app : TodoApp) (title : List Char) : Step app (AddTask app title).1
  | toggle (app : TodoApp) (id : Int) : Step app (ToggleTask app id).1
  | delete (app : TodoApp) (id : Int) : Step app (DeleteTask app id).1

/-- Store states reachable from `NewTodoApp` by store operations. -/
inductive Reachable : TodoApp → Prop
  | init : Reachable NewTodoApp
  | step {app app' : TodoApp} : Reachable app → Step app app' → Reachable app'

/-- The store invariant: live IDs are pairwise distinct, each is at least 1
and strictly below the next-ID counter, and the counter is at least 1. -/
def StoreInv (app : TodoApp) : Prop :=
  (app.tasks.map Task.ID).Nodup ∧
    (∀ t ∈ app.tasks, 1 ≤ t.ID ∧ t.ID < app.nextID) ∧ 1 ≤ app.nextID

/-! ### The HTTP handler layer (`handlers/api.go`, `main.go`) -/

/-- The literal `"/api/tasks/"` (11 bytes) that both ID-bearing handlers
strip from the front of the URL path. -/
def apiTasksBase : List Char := "/api/tasks/".toList

/-- The literal `"/toggle"` (7 bytes) used by the dispatcher's suffix test
and by `ToggleTaskHandler`'s trailing cut. -/
def toggleTail : List Char := "/toggle".toList

/-- Go slice expression `s[i:]`: panics (`none`) unless `0 ≤ i ≤ len(s)`. -/
def goSliceFrom (s : List Char) (i : Int) : Option (List Char) :=
  if 0 ≤ i ∧ i ≤ s.length then some (s.drop i.toNat) else none

/-- Go slice expression `s[:i]`: panics (`none`) unless `0 ≤ i ≤ len(s)`. -/
def goSliceTo (s : List Char) (i : Int) : Option (List Char) :=
  if 0 ≤ i ∧ i ≤ s.length then some (s.take i.toNat) else none

/-- `strconv.Atoi`: an optional single sign followed by at least one ASCII
digit, value within the signed 64-bit range; anything else is an error
(`none`), which the handlers turn into a bad-request response. -/
def atoi (s : List Char) : Option Int :=
  let signSplit : Bool × List Char :=
    match s with
    | '-' :: rest => (true, rest)
    | '+' :: rest => (false, rest)
    | _ => (false, s)
  let neg := signSplit.1
  let digits := signSplit.2
  if digits.isEmpty then none
  else if digits.all fun c => decide ('0' ≤ c) && decide (c ≤ '9') then
    let n : Nat := digits.foldl (fun acc c => acc * 10 + (c.toNat - 48)) 0
    let v : Int := if neg then -(n : Int) else (n : Int)
    if decide (-(2 ^ 63) ≤ v) && decide (v < 2 ^ 63) then some v else none
  else none

/-- Outcome of one request, as the handlers in `handlers/api.go` write it:
a 405, a 400, or a 200 carrying `{"success": bool}`. -/
inductive HandlerResult where
  | methodNotAllowed
  | badRequest
  | ok (success : Bool)
  deriving Repr, DecidableEq

/-- `ToggleTaskHandler` from `handlers/api.go`: method check, then
`idStr := path[len("/api/tasks/"):]`, `idStr = idStr[:len(idStr)-len("/toggle")]`,
`strconv.Atoi`, then the store call.  `none` models a panic in either
slice expression. -/
def ToggleTaskHandler (method : String) (path : List Char) (app : TodoApp) :
    Option (HandlerResult × TodoApp) :=
  if method ≠ "PUT" then some (.methodNotAllowed, app)
  else
    match goSliceFrom path (apiTasksBase.length : Int) with
    | none => none
    | some s₀ =>
      match goSliceTo s₀ ((s₀.length : Int) - (toggleTail.length : Int)) with
      | none => none
      | some idStr =>
        match atoi idStr with
        | none => some (.badRequest, app)
        | some id =>
          let r := ToggleTask app id
          some (.ok r.2, r.1)

/-- `DeleteTaskHandler` from `handlers/api.go`: method check, then
`idStr := path[len("/api/tasks/"):]`, `strconv.Atoi`, then the store call. -/
def DeleteTaskHandler (method : String) (path : List Char) (app : TodoApp) :
    Option (HandlerResult × TodoApp) :=
  if method ≠ "DELETE" then some (.methodNotAllowed, app)
  else
    match goSliceFrom path (apiTasksBase.length : Int) with
    | none => none
    | some idStr =>
      match atoi idStr with
      | none => some (.badRequest, app)
      | some id =>
        let r := DeleteTask app id
        some (.ok r.2, r.1)

/-- The `/api/tasks/` subtree dispatcher from `main.go`: route to the
toggle handler when `path[len(path)-7:] == "/toggle"`, to the delete
handler otherwise.  The suffix slice itself is a Go slice expression. -/
def apiTasksSubtree (method : String) (path : List Char) (app : TodoApp) :
    Option (HandlerResult × TodoApp) :=
  match goSliceFrom path ((path.length : Int) - (toggleTail.length : Int)) with
  | none => none
  | some suf =>
    if suf = toggleTail then ToggleTaskHandler method path app
    else DeleteTaskHandler method path app

/-! ### A slice-heap model of `GetTasks`'s defensive copy -/

/-- The backing arrays of all task slices in play; a slice is an index
into this heap (every slice here spans its whole array). -/
structure SliceHeap where
  arrays : List (List Task)
  deriving Repr, DecidableEq

/-- Contents of the array a slice reference points to. -/
def readArr (h : SliceHeap) (r : Nat) : List Task :=
  h.arrays.getD r []

/-- `GetTasks` at the slice level: `make` a fresh backing array, `copy`
the store's tasks into it, and hand back a reference to the copy (never
to the store's own array). -/
def GetTasksAlloc (h : SliceHeap) (storeRef : Nat) : SliceHeap × Nat :=
  (⟨h.arrays ++ [readArr h storeRef]⟩, h.arrays.length)

/-- A caller mutating element `i` of the slice it received. -/
def writeArr (h : SliceHeap) (r i : Nat) (t : Task) : SliceHeap :=
  ⟨h.arrays.set r ((h.arrays.getD r []).set i t)⟩

/-- `createMany app titles`: run `AddTask` once per title, left to right. -/
def createMany (app : TodoApp) : List (List Char) → TodoApp
  | [] => app
  | title :: rest => createMany (AddTask app title).1 rest

/-- The tasks that `N` creates produce: consecutive IDs from `startID`,
given titles, all incomplete. -/
def tasksOf (titles : List (List Char)) (startID : Int) : List Task :=
  match titles with
  | [] => []
  | title :: rest =>
    { ID := startID, Title := title, Completed := false } :: tasksOf rest (startID + 1)

/-- A one-task store, used to instantiate the claim theorems. -/
def sampleApp : TodoApp := (AddTask NewTodoApp ['a']).1

/-! ### Lemmas about the toggle / delete loops -/

theorem TodoApp_eta (app : TodoApp) :
    ({ tasks := app.tasks, nextID := app.nextID } : TodoApp) = app := rfl

theorem AddTask_fst (app : TodoApp) (title : List Char) :
    (AddTask app title).1 =
      { tasks := app.tasks ++ [{ ID := app.nextID, Title := title, Completed := false }],
        nextID := app.nextID + 1 } := rfl

theorem AddTask_snd (app : TodoApp) (title : List Char) :
    (AddTask app title).2 =
      { ID := app.nextID, Title := title, Completed := false } := rfl

theorem ToggleTask_fst (app : TodoApp) (id : Int) :
    (ToggleTask app id).1 =
      { tasks := (toggleGo app.tasks id).1, nextID := app.nextID } := rfl

theorem ToggleTask_snd (app : TodoApp) (id : Int) :
    (ToggleTask app id).2 = (toggleGo app.tasks id).2 := rfl

theorem DeleteTask_fst (app : TodoApp) (id : Int) :
    (DeleteTask app id).1 =
      { tasks := (deleteGo app.tasks id).1, nextID := app.nextID } := rfl

theorem DeleteTask_snd (app : TodoApp) (id : Int) :
    (DeleteTask app id).2 = (deleteGo app.tasks id).2 := rfl

theorem toggleGo_not_found {l : List Task} {id : Int}
    (h : ∀ t ∈ l, t.ID ≠ id) : toggleGo l id = (l, false) := by
  induction l with
  | nil => rfl
  | cons t ts ih =>
    have ht : t.ID ≠ id := h t (List.mem_cons_self t ts)
    simp only [toggleGo, if_neg ht, ih fun u hu => h u (List.mem_cons_of_mem t hu)]

theorem toggleGo_found {l₁ l₂ : List Task} {t : Task} {id : Int}
    (ht : t.ID = id) (h₁ : ∀ u ∈ l₁, u.ID ≠ id) :
    toggleGo (l₁ ++ t :: l₂) id =
      (l₁ ++ { t with Completed := !t.Completed } :: l₂, true) := by
  induction l₁ with
  | nil => simp [toggleGo, ht]
  | cons u us ih =>
    have hu : u.ID ≠ id := h₁ u (List.mem_cons_self u us)
    have ih' := ih fun v hv => h₁ v (List.mem_cons_of_mem u hv)
    simp [toggleGo, if_neg hu, ih']

theorem deleteGo_not_found {l : List Task} {id : Int}
    (h : ∀ t ∈ l, t.ID ≠ id) : deleteGo l id = (l, false) := by
  induction l with
  | nil => rfl
  | cons t ts ih =>
    have ht : t.ID ≠ id := h t (List.mem_cons_self t ts)
    simp only [deleteGo, if_neg ht, ih fun u hu => h u (List.mem_cons_of_mem t hu)]

theorem deleteGo_found {l₁ l₂ : List Task} {t : Task} {id : Int}
    (ht : t.ID = id) (h₁ : ∀ u ∈ l₁, u.ID ≠ id) :
    deleteGo (l₁ ++ t :: l₂) id = (l₁ ++ l₂, true) := by
  induction l₁ with
  | nil => simp [deleteGo, ht]
  | cons u us ih =>
    have hu : u.ID ≠ id := h₁ u (List.mem_cons_self u us)
    have ih' := ih fun v hv => h₁ v (List.mem_cons_of_mem u hv)
    simp [deleteGo, if_neg hu, ih']

/-- Split a list at the first task carrying a given ID. -/
theorem exists_first_match {l : List Task} {id : Int}
    (h : ∃ t ∈ l, t.ID = id) :
    ∃ l₁ t l₂, l = l₁ ++ t :: l₂ ∧ t.ID = id ∧ ∀ u ∈ l₁, u.ID ≠ id := by
  induction l with
  | nil => simp at h
  | cons t ts ih =>
    by_cases ht : t.ID = id
    · exact ⟨[], t, ts, by simp, ht, by simp⟩
    · obtain ⟨u, hu, hu'⟩ := h
      rcases List.mem_cons.mp hu with rfl | hu
      · exact absurd hu' ht
      · obtain ⟨l₁, v, l₂, hsplit, hv, hfirst⟩ := ih ⟨u, hu, hu'⟩
        refine ⟨t :: l₁, v, l₂, by simp [hsplit], hv, ?_⟩
        intro w hw
        rcases List.mem_cons.mp hw with rfl | hw
        · exact ht
        · exact hfirst w hw

theorem toggleGo_snd (l : List Task) (id : Int) :
    (toggleGo l id).2 = l.any fun t => t.ID = id := by
  induction l with
  | nil => rfl
  | cons t ts ih =>
    by_cases ht : t.ID = id
    · simp [toggleGo, ht]
    · simp [toggleGo, ht, ih]

theorem deleteGo_snd (l : List Task) (id : Int) :
    (deleteGo l id).2 = l.any fun t => t.ID = id := by
  induction l with
  | nil => rfl
  | cons t ts ih =>
    by_cases ht : t.ID = id
    · simp [deleteGo, ht]
    · simp [deleteGo, ht, ih]

theorem toggleGo_map_ID (l : List Task) (id : Int) :
    (toggleGo l id).1.map Task.ID = l.map Task.ID := by
  induction l with
  | nil => rfl
  | cons t ts ih =>
    by_cases ht : t.ID = id
    · simp [toggleGo, ht]
    · simp [toggleGo, ht, ih]

/-- The surviving IDs after a delete form a sublist of the original IDs. -/
theorem deleteGo_map_ID_sublist (l : List Task) (id : Int) :
    ((deleteGo l id).1.map Task.ID).Sublist (l.map Task.ID) := by
  induction l with
  | nil => simp [deleteGo]
  | cons t ts ih =>
    by_cases ht : t.ID = id
    · simp only [deleteGo, if_pos ht, List.map_cons]
      exact (List.sublist_cons_self _ _)
    · simp only [deleteGo, if_neg ht, List.map_cons]
      exact ih.cons₂ _

/-! ### Invariant preservation and reachability -/

theorem storeInv_init : StoreInv NewTodoApp := by
  refine ⟨?_, ?_, ?_⟩ <;> simp [NewTodoApp]

theorem storeInv_addTask {app : TodoApp} (h : StoreInv app) (title : List Char) :
    StoreInv (AddTask app title).1 := by
  obtain ⟨hnd, hlt, hpos⟩ := h
  rw [StoreInv, AddTask_fst]
  refine ⟨?_, ?_, by simp; omega⟩
  · simp only [List.map_append, List.map_cons, List.map_nil]
    rw [List.nodup_append]
    refine ⟨hnd, List.nodup_singleton _, ?_⟩
    intro x hx hmem
    simp only [List.mem_singleton] at hmem
    obtain ⟨t, ht, rfl⟩ := List.mem_map.mp hx
    have := (hlt t ht).2
    omega
  · intro t ht
    simp only [List.mem_append, List.mem_singleton] at ht
    rcases ht with ht | rfl
    · have := hlt t ht
      refine ⟨this.1, ?_⟩
      show t.ID < app.nextID + 1
      omega
    · show 1 ≤ app.nextID ∧ app.nextID < app.nextID + 1
      omega

/-- Every task surviving a delete was in the original collection. -/
theorem deleteGo_mem_subset {l : List Task} {id : Int} {t : Task}
    (ht : t ∈ (deleteGo l id).1) : t ∈ l := by
  induction l with
  | nil => simp [deleteGo] at ht
  | cons u us ih =>
    by_cases hu : u.ID = id
    · simp only [deleteGo, if_pos hu] at ht
      exact List.mem_cons_of_mem u ht
    · simp only [deleteGo, if_neg hu, List.mem_cons] at ht
      rcases ht with rfl | ht
      · exact List.mem_cons_self t us
      · exact List.mem_cons_of_mem u (ih ht)

theorem storeInv_toggleTask {app : TodoApp} (h : StoreInv app) (id : Int) :
    StoreInv (ToggleTask app id).1 := by
  obtain ⟨hnd, hlt, hpos⟩ := h
  rw [StoreInv, ToggleTask_fst]
  refine ⟨?_, ?_, hpos⟩
  · simpa [toggleGo_map_ID] using hnd
  · intro t ht
    dsimp only at ht ⊢
    have hmem : t.ID ∈ (toggleGo app.tasks id).1.map Task.ID :=
      List.mem_map_of_mem Task.ID ht
    rw [toggleGo_map_ID] at hmem
    obtain ⟨u, hu, huid⟩ := List.mem_map.mp hmem
    have := hlt u hu
    omega

theorem storeInv_deleteTask {app : TodoApp} (h : StoreInv app) (id : Int) :
    StoreInv (DeleteTask app id).1 := by
  obtain ⟨hnd, hlt, hpos⟩ := h
  rw [StoreInv, DeleteTask_fst]
  refine ⟨by simpa using (deleteGo_map_ID_sublist app.tasks id).nodup hnd, ?_, hpos⟩
  intro t ht
  dsimp only at ht ⊢
  exact hlt t (deleteGo_mem_subset ht)

theorem storeInv_step {app app' : TodoApp} (h : StoreInv app) (hs : Step app app') :
    StoreInv app' := by
  cases hs with
  | add title => exact storeInv_addTask h title
  | toggle id => exact storeInv_toggleTask h id
  | delete id => exact storeInv_deleteTask h id

theorem storeInv_reachable {app : TodoApp} (h : Reachable app) : StoreInv app := by
  induction h with
  | init => exact storeInv_init
  | step _ hs ih => exact storeInv_step ih hs

/-- Every step leaves the next-ID counter equal or larger. -/
theorem step_nextID_mono {app app' : TodoApp} (hs : Step app app') :
    app.nextID ≤ app'.nextID := by
  cases hs with
  | add title =>
    show app.nextID ≤ app.nextID + 1
    omega
  | toggle id => rw [ToggleTask_fst]
  | delete id => rw [DeleteTask_fst]

/-! ### Lemmas about the Go slice expressions -/

theorem goSliceFrom_coe {s : List Char} {n : Nat} (h : n ≤ s.length) :
    goSliceFrom s (n : Int) = some (s.drop n) := by
  rw [goSliceFrom, if_pos ⟨by omega, by omega⟩]
  have hn : ((n : Int)).toNat = n := by omega
  rw [hn]

theorem goSliceFrom_sub {s : List Char} {n : Nat} (h : n ≤ s.length) :
    goSliceFrom s ((s.length : Int) - (n : Int)) = some (s.drop (s.length - n)) := by
  rw [goSliceFrom, if_pos ⟨by omega, by omega⟩]
  have hn : ((s.length : Int) - (n : Int)).toNat = s.length - n := by omega
  rw [hn]

theorem goSliceTo_sub {s : List Char} {n : Nat} (h : n ≤ s.length) :
    goSliceTo s ((s.length : Int) - (n : Int)) = some (s.take (s.length - n)) := by
  rw [goSliceTo, if_pos ⟨by omega, by omega⟩]
  have hn : ((s.length : Int) - (n : Int)).toNat = s.length - n := by omega
  rw [hn]

/-! ### Lemmas about the slice heap and repeated creates -/

theorem getD_append_left {α : Type} (l₁ l₂ : List α) (d : α) {n : Nat}
    (h : n < l₁.length) : (l₁ ++ l₂).getD n d = l₁.getD n d := by
  rw [List.getD_eq_getElem?_getD, List.getD_eq_getElem?_getD,
    List.getElem?_append_left h]

theorem getD_append_at_length {α : Type} (l₁ : List α) (c d : α) :
    (l₁ ++ [c]).getD l₁.length d = c := by
  rw [List.getD_eq_getElem?_getD, List.getElem?_append_right (le_refl _)]
  simp

theorem set_append_at_length {α : Type} (l₁ : List α) (c x : α) :
    (l₁ ++ [c]).set l₁.length x = l₁ ++ [x] := by
  rw [List.set_append_right _ _ (le_refl _)]
  simp

/-- Reading back the reference `GetTasks` hands out yields the copied
contents. -/
theorem GetTasksAlloc_read (h : SliceHeap) (r : Nat) :
    readArr (GetTasksAlloc h r).1 (GetTasksAlloc h r).2 = readArr h r := by
  rw [GetTasksAlloc]
  dsimp only
  rw [readArr]
  dsimp only
  exact getD_append_at_length h.arrays (readArr h r) []

/-- Writing through the handed-out reference never touches the store's
own array: the copy has a fresh backing array. -/
theorem writeArr_fresh (h : SliceHeap) (r : Nat) (hr : r < h.arrays.length)
    (i : Nat) (t : Task) :
    readArr (writeArr (GetTasksAlloc h r).1 (GetTasksAlloc h r).2 i t) r =
      readArr h r := by
  rw [GetTasksAlloc]
  dsimp only
  rw [writeArr, readArr]
  dsimp only
  rw [getD_append_at_length h.arrays (readArr h r) [],
    set_append_at_length h.arrays (readArr h r) ((readArr h r).set i t),
    getD_append_left h.arrays _ [] hr]
  rfl

theorem tasksOf_length (titles : List (List Char)) (startID : Int) :
    (tasksOf titles startID).length = titles.length := by
  induction titles generalizing startID with
  | nil => rfl
  | cons t rest ih => rw [tasksOf]; simp [ih]

/-- Running `AddTask` once per title appends tasks with consecutive IDs
from the current next-ID, in title order. -/
theorem createMany_tasks (titles : List (List Char)) (app : TodoApp) :
    (createMany app titles).tasks = app.tasks ++ tasksOf titles app.nextID ∧
    (createMany app titles).nextID = app.nextID + titles.length := by
  induction titles generalizing app with
  | nil => simp [createMany, tasksOf]
  | cons t rest ih =>
    obtain ⟨ih1, ih2⟩ := ih (AddTask app t).1
    rw [createMany]
    constructor
    · rw [ih1, AddTask_fst]
      dsimp only
      rw [tasksOf, List.append_assoc]
      rfl
    · rw [ih2, AddTask_fst]
      dsimp only
      simp
      omega

/-! ### Claim theorems -/

/-- C1: in every store state reachable from the initial state by
create/toggle/delete operations, live task IDs are pairwise distinct and
strictly below next-ID; a create bumps next-ID by exactly 1, toggle and
delete never change it, and next-ID never decreases across any step, so
an assigned ID is never assigned again even after deletion. -/
theorem store_id_invariant (app : TodoApp) (h : Reachable app) :
    ((app.tasks.map Task.ID).Nodup ∧ ∀ t ∈ app.tasks, t.ID < app.nextID) ∧
    (∀ title, (AddTask app title).1.nextID = app.nextID + 1) ∧
    (∀ id, (ToggleTask app id).1.nextID = app.nextID ∧
      (DeleteTask app id).1.nextID = app.nextID) ∧
    (∀ app', Step app app' → app.nextID ≤ app'.nextID) := by
  obtain ⟨hnd, hlt, _⟩ := storeInv_reachable h
  exact ⟨⟨hnd, fun t ht => (hlt t ht).2⟩, fun _ => rfl, fun _ => ⟨rfl, rfl⟩,
    fun _ hs => step_nextID_mono hs⟩

theorem store_id_invariant_witness :
    (sampleApp.tasks.map Task.ID).Nodup ∧
      ∀ t ∈ sampleApp.tasks, t.ID < sampleApp.nextID :=
  (store_id_invariant sampleApp
    (Reachable.step Reachable.init (Step.add NewTodoApp ['a']))).1

/-- C2: `AddTask` returns a task with ID = current next-ID, the given
title and completed = false, appends exactly that task at the end of the
collection, increments next-ID by 1, and (being a total function) never
fails, for every store state and every title including the empty one. -/
theorem addTask_spec (app : TodoApp) (title : List Char) :
    (AddTask app title).2.ID = app.nextID ∧
    (AddTask app title).2.Title = title ∧
    (AddTask app title).2.Completed = false ∧
    (AddTask app title).1.tasks = app.tasks ++ [(AddTask app title).2] ∧
    (AddTask app title).1.nextID = app.nextID + 1 :=
  ⟨rfl, rfl, rfl, rfl, rfl⟩

/-- C3: `DeleteTask` removes exactly the one entry carrying the given ID
(collection shrinks by one, relative order of the rest preserved) and
returns true when such an entry exists; otherwise it leaves the store
unchanged and returns false. -/
theorem deleteTask_spec (app : TodoApp) (id : Int) :
    ((∀ t ∈ app.tasks, t.ID ≠ id) → DeleteTask app id = (app, false)) ∧
    ((∃ t ∈ app.tasks, t.ID = id) →
      (DeleteTask app id).2 = true ∧
      (DeleteTask app id).1.nextID = app.nextID ∧
      ∃ l₁ t l₂, app.tasks = l₁ ++ t :: l₂ ∧ t.ID = id ∧
        (∀ u ∈ l₁, u.ID ≠ id) ∧
        (DeleteTask app id).1.tasks = l₁ ++ l₂ ∧
        (DeleteTask app id).1.tasks.length + 1 = app.tasks.length) := by
  constructor
  · intro hnone
    have h := deleteGo_not_found hnone
    show ({ tasks := (deleteGo app.tasks id).1, nextID := app.nextID },
      (deleteGo app.tasks id).2) = (app, false)
    rw [h]
  · intro hex
    obtain ⟨l₁, t, l₂, hsplit, hid, hfirst⟩ := exists_first_match hex
    have h : deleteGo app.tasks id = (l₁ ++ l₂, true) := by
      rw [hsplit]; exact deleteGo_found hid hfirst
    refine ⟨?_, rfl, l₁, t, l₂, hsplit, hid, hfirst, ?_, ?_⟩
    · rw [DeleteTask_snd, h]
    · rw [DeleteTask_fst]
      dsimp only
      rw [h]
    · rw [DeleteTask_fst]
      dsimp only
      rw [h, hsplit]
      simp
      omega

theorem deleteTask_spec_witness :
    (∃ t ∈ sampleApp.tasks, t.ID = 1) ∧ (DeleteTask sampleApp 1).2 = true :=
  ⟨by decide, ((deleteTask_spec sampleApp 1).2 (by decide)).1⟩

/-- C4: `ToggleTask` flips exactly the completed flag of the one matching
task (its ID and title, and all other tasks, are untouched) and returns
true when a match exists; otherwise it leaves the store unchanged and
returns false.  At most one flip occurs per call. -/
theorem toggleTask_spec (app : TodoApp) (id : Int) :
    ((∀ t ∈ app.tasks, t.ID ≠ id) → ToggleTask app id = (app, false)) ∧
    ((∃ t ∈ app.tasks, t.ID = id) →
      (ToggleTask app id).2 = true ∧
      (ToggleTask app id).1.nextID = app.nextID ∧
      ∃ l₁ t l₂, app.tasks = l₁ ++ t :: l₂ ∧ t.ID = id ∧
        (∀ u ∈ l₁, u.ID ≠ id) ∧
        (ToggleTask app id).1.tasks =
          l₁ ++ { ID := t.ID, Title := t.Title, Completed := !t.Completed } :: l₂) := by
  constructor
  · intro hnone
    have h := toggleGo_not_found hnone
    show ({ tasks := (toggleGo app.tasks id).1, nextID := app.nextID },
      (toggleGo app.tasks id).2) = (app, false)
    rw [h]
  · intro hex
    obtain ⟨l₁, t, l₂, hsplit, hid, hfirst⟩ := exists_first_match hex
    have h : toggleGo app.tasks id =
        (l₁ ++ { t with Completed := !t.Completed } :: l₂, true) := by
      rw [hsplit]; exact toggleGo_found hid hfirst
    refine ⟨?_, rfl, l₁, t, l₂, hsplit, hid, hfirst, ?_⟩
    · rw [ToggleTask_snd, h]
    · rw [ToggleTask_fst]
      dsimp only
      rw [h]

theorem toggleTask_spec_witness :
    (∃ t ∈ sampleApp.tasks, t.ID = 1) ∧ (ToggleTask sampleApp 1).2 = true :=
  ⟨by decide, ((toggleTask_spec sampleApp 1).2 (by decide)).1⟩

/-- C6: toggling an existing ID twice in succession returns the store to
exactly its original state, and both calls return true. -/
theorem toggleTask_involution (app : TodoApp) (id : Int)
    (h : ∃ t ∈ app.tasks, t.ID = id) :
    (ToggleTask app id).2 = true ∧
    (ToggleTask (ToggleTask app id).1 id).2 = true ∧
    (ToggleTask (ToggleTask app id).1 id).1 = app := by
  obtain ⟨l₁, t, l₂, hsplit, hid, hfirst⟩ := exists_first_match h
  have h1 : toggleGo app.tasks id =
      (l₁ ++ { t with Completed := !t.Completed } :: l₂, true) := by
    rw [hsplit]; exact toggleGo_found hid hfirst
  have h2 : toggleGo (l₁ ++ { t with Completed := !t.Completed } :: l₂) id =
      (l₁ ++ { ID := t.ID, Title := t.Title, Completed := !(!t.Completed) } :: l₂,
        true) :=
    toggleGo_found hid hfirst
  have hdouble : ({ ID := t.ID, Title := t.Title, Completed := !(!t.Completed) } : Task) = t := by
    cases t; simp
  refine ⟨?_, ?_, ?_⟩
  · rw [ToggleTask_snd, h1]
  · rw [ToggleTask_snd, ToggleTask_fst]
    dsimp only
    rw [h1]
    dsimp only
    rw [h2]
  · rw [ToggleTask_fst, ToggleTask_fst]
    dsimp only
    rw [h1]
    dsimp only
    rw [h2]
    dsimp only
    rw [hdouble, ← hsplit, TodoApp_eta]

theorem toggleTask_involution_witness :
    (∃ t ∈ sampleApp.tasks, t.ID = 1) ∧
      (ToggleTask (ToggleTask sampleApp 1).1 1).1 = sampleApp :=
  ⟨by decide, (toggleTask_involution sampleApp 1 (by decide)).2.2⟩

/-- C9: `ToggleTask` and `DeleteTask` return the same boolean for every
store state and ID, namely whether a task with that ID is currently in
the collection. -/
theorem toggle_delete_agree (app : TodoApp) (id : Int) :
    (ToggleTask app id).2 = (DeleteTask app id).2 ∧
    ((ToggleTask app id).2 = true ↔ id ∈ app.tasks.map Task.ID) := by
  refine ⟨?_, ?_⟩
  · rw [ToggleTask_snd, DeleteTask_snd, toggleGo_snd, deleteGo_snd]
  · rw [ToggleTask_snd, toggleGo_snd]
    simp only [List.any_eq_true, decide_eq_true_eq, List.mem_map]

/-- C7: for every URL path in the `/api/tasks/` subtree, the dispatcher
routes the request to the toggle handler exactly when the path's last
seven bytes are the literal `"/toggle"`, and to the delete handler
otherwise — whatever the HTTP method. -/
theorem routing_toggle_iff (method : String) (path : List Char) (app : TodoApp)
    (h : ∃ rest, path = apiTasksBase ++ rest) :
    apiTasksSubtree method path app =
      if toggleTail.length ≤ path.length ∧
          path.drop (path.length - toggleTail.length) = toggleTail
        then ToggleTaskHandler method path app
        else DeleteTaskHandler method path app := by
  obtain ⟨rest, hpath⟩ := h
  have hlen : toggleTail.length ≤ path.length := by
    rw [hpath, List.length_append]
    have hb : apiTasksBase.length = 11 := rfl
    have ht : toggleTail.length = 7 := rfl
    omega
  rw [apiTasksSubtree, goSliceFrom_sub hlen]
  dsimp only
  by_cases hd : path.drop (path.length - toggleTail.length) = toggleTail
  · rw [if_pos hd, if_pos ⟨hlen, hd⟩]
  · rw [if_neg hd, if_neg fun hc => hd hc.2]

theorem routing_toggle_iff_witness :
    (∃ rest, ("/api/tasks/9/toggle".toList) = apiTasksBase ++ rest) ∧
      apiTasksSubtree "PUT" ("/api/tasks/9/toggle".toList) NewTodoApp =
        ToggleTaskHandler "PUT" ("/api/tasks/9/toggle".toList) NewTodoApp := by
  refine ⟨⟨"9/toggle".toList, by decide⟩, ?_⟩
  rw [routing_toggle_iff "PUT" _ NewTodoApp ⟨"9/toggle".toList, by decide⟩]
  rw [if_pos (by decide)]

/-- C10: the delete handler accepts every string `strconv.Atoi` parses,
so a DELETE for a non-positive ID is not rejected as a bad request: it
reaches the store and comes back as a 200 with `success = false`, because
every reachable store state holds only tasks with IDs at least 1. -/
theorem delete_nonpositive_id (s : List Char) (id : Int) (app : TodoApp)
    (hs : atoi s = some id) (hid : id ≤ 0) (happ : Reachable app) :
    DeleteTaskHandler "DELETE" (apiTasksBase ++ s) app =
      some (.ok false, app) := by
  obtain ⟨_, hlt, _⟩ := storeInv_reachable happ
  have hnomatch : ∀ t ∈ app.tasks, t.ID ≠ id := by
    intro t ht
    have := (hlt t ht).1
    omega
  have hdel := deleteGo_not_found hnomatch
  have hbase : apiTasksBase.length ≤ (apiTasksBase ++ s).length := by
    rw [List.length_append]; omega
  rw [DeleteTaskHandler, if_neg (not_not_intro rfl), goSliceFrom_coe hbase,
    List.drop_left]
  dsimp only
  rw [hs]
  dsimp only
  rw [DeleteTask_snd, DeleteTask_fst, hdel]

theorem delete_nonpositive_id_witness :
    atoi ['-', '1'] = some (-1) ∧ (-1 : Int) ≤ 0 ∧
      DeleteTaskHandler "DELETE" (apiTasksBase ++ ['-', '1']) NewTodoApp =
        some (.ok false, NewTodoApp) :=
  ⟨by decide, by decide,
    delete_nonpositive_id ['-', '1'] (-1) NewTodoApp (by decide) (by decide)
      Reachable.init⟩

/-- C5: `GetTasks` returns exactly the live tasks in insertion order —
after N creates and no deletes, N tasks in creation order with IDs
1..N — and the returned snapshot is an independently-owned copy: writing
into the snapshot's backing array changes neither the store's array nor
the contents any subsequent `GetTasks` copy returns. -/
theorem getTasks_snapshot_spec :
    (∀ titles : List (List Char),
      GetTasks (createMany NewTodoApp titles) = tasksOf titles 1 ∧
      (GetTasks (createMany NewTodoApp titles)).length = titles.length) ∧
    (∀ (h : SliceHeap) (storeRef : Nat), storeRef < h.arrays.length →
      ∀ (i : Nat) (t : Task),
        readArr (writeArr (GetTasksAlloc h storeRef).1
            (GetTasksAlloc h storeRef).2 i t) storeRef = readArr h storeRef ∧
        readArr
            (GetTasksAlloc (writeArr (GetTasksAlloc h storeRef).1
                (GetTasksAlloc h storeRef).2 i t) storeRef).1
            (GetTasksAlloc (writeArr (GetTasksAlloc h storeRef).1
                (GetTasksAlloc h storeRef).2 i t) storeRef).2 =
          readArr h storeRef) := by
  constructor
  · intro titles
    obtain ⟨h1, _⟩ := createMany_tasks titles NewTodoApp
    constructor
    · rw [GetTasks, h1]
      rfl
    · rw [GetTasks, h1]
      show (tasksOf titles 1).length = titles.length
      exact tasksOf_length titles 1
  · intro h storeRef hr i t
    refine ⟨writeArr_fresh h storeRef hr i t, ?_⟩
    rw [GetTasksAlloc_read]
    exact writeArr_fresh h storeRef hr i t

theorem getTasks_snapshot_spec_witness :
    (0 : Nat) < (SliceHeap.mk [[{ ID := 1, Title := ['a'], Completed := false }]]).arrays.length ∧
      readArr
          (writeArr
            (GetTasksAlloc (SliceHeap.mk [[{ ID := 1, Title := ['a'], Completed := false }]]) 0).1
            (GetTasksAlloc (SliceHeap.mk [[{ ID := 1, Title := ['a'], Completed := false }]]) 0).2
            0 { ID := 99, Title := ['z'], Completed := true }) 0 =
        readArr (SliceHeap.mk [[{ ID := 1, Title := ['a'], Completed := false }]]) 0 :=
  ⟨by decide,
    ((getTasks_snapshot_spec.2
        (SliceHeap.mk [[{ ID := 1, Title := ['a'], Completed := false }]]) 0
        (by decide) 0 { ID := 99, Title := ['z'], Completed := true })).1⟩

/-- C8 counterexample: a PUT to the path `/api/tasks/toggle` passes the
dispatcher's suffix test, and the toggle handler's trailing cut
`idStr[:len(idStr)-len("/toggle")]` then slices with bound `-1`: the
handling is not total (`none` models the Go slice-bounds panic). -/
theorem toggle_route_panic_cex :
    apiTasksSubtree "PUT" ("/api/tasks/toggle".toList) NewTodoApp = none := by
  decide

/-- C8 as amended: for every method, path in the `/api/tasks/` subtree and
body-independent store state, the dispatcher's handling is total — except
for the single combination of method PUT and the exact path
`/api/tasks/toggle`, where the ID extraction slices out of range. -/
theorem dispatcher_total_amended (method : String) (path : List Char)
    (app : TodoApp) (hp : ∃ rest, path = apiTasksBase ++ rest)
    (hne : ¬(method = "PUT" ∧ path = "/api/tasks/toggle".toList)) :
    (apiTasksSubtree method path app).isSome = true := by
  obtain ⟨rest, rfl⟩ := hp
  have hb : apiTasksBase.length = 11 := rfl
  have ht : toggleTail.length = 7 := rfl
  have hlen7 : toggleTail.length ≤ (apiTasksBase ++ rest).length := by
    rw [List.length_append]
    omega
  have hb11 : apiTasksBase.length ≤ (apiTasksBase ++ rest).length := by
    rw [List.length_append]
    omega
  rw [apiTasksSubtree, goSliceFrom_sub hlen7]
  dsimp only
  by_cases hd :
      (apiTasksBase ++ rest).drop ((apiTasksBase ++ rest).length - toggleTail.length) =
        toggleTail
  · rw [if_pos hd]
    by_cases hm : method = "PUT"
    · subst hm
      have hne' : apiTasksBase ++ rest ≠ "/api/tasks/toggle".toList :=
        fun hc => hne ⟨rfl, hc⟩
      have h7rest : 7 ≤ rest.length := by
        by_contra hlt7
        push_neg at hlt7
        have hdist : (apiTasksBase ++ rest).length - toggleTail.length =
            4 + rest.length := by
          rw [List.length_append]
          omega
        rw [hdist, List.drop_append_eq_append_drop] at hd
        have hz : 4 + rest.length - apiTasksBase.length = 0 := by omega
        rw [hz, List.drop_zero] at hd
        obtain ⟨j, hj, hj1, hj7⟩ : ∃ j, j = 7 - rest.length ∧ 1 ≤ j ∧ j ≤ 7 :=
          ⟨7 - rest.length, rfl, by omega, by omega⟩
        have hlenpre : (apiTasksBase.drop (4 + rest.length)).length =
            (toggleTail.take j).length := by
          rw [List.length_drop, List.length_take]
          omega
        obtain ⟨hpre, hrest⟩ :=
          List.append_inj (hd.trans (List.take_append_drop j toggleTail).symm) hlenpre
        have h4k : 4 + rest.length = 11 - j := by omega
        rw [h4k] at hpre
        interval_cases j
        · exact hne' (by rw [hrest]; decide)
        · exact absurd hpre (by decide)
        · exact absurd hpre (by decide)
        · exact absurd hpre (by decide)
        · exact absurd hpre (by decide)
        · exact absurd hpre (by decide)
        · exact absurd hpre (by decide)
      rw [ToggleTaskHandler, if_neg (not_not_intro rfl), goSliceFrom_coe hb11,
        List.drop_left]
      dsimp only
      rw [goSliceTo_sub (show toggleTail.length ≤ rest.length by omega)]
      dsimp only
      cases atoi (rest.take (rest.length - toggleTail.length)) <;> rfl
    · rw [ToggleTaskHandler, if_pos hm]
      rfl
  · rw [if_neg hd]
    by_cases hm : method = "DELETE"
    · subst hm
      rw [DeleteTaskHandler, if_neg (not_not_intro rfl), goSliceFrom_coe hb11,
        List.drop_left]
      dsimp only
      cases atoi rest <;> rfl
    · rw [DeleteTaskHandler, if_pos hm]
      rfl

theorem dispatcher_total_amended_witness :
    (∃ rest, ("/api/tasks/12".toList) = apiTasksBase ++ rest) ∧
      ¬("DELETE" = "PUT" ∧ ("/api/tasks/12".toList) = "/api/tasks/toggle".toList) ∧
      (apiTasksSubtree "DELETE" ("/api/tasks/12".toList) NewTodoApp).isSome = true :=
  ⟨⟨"12".toList, by decide⟩, by decide,
    dispatcher_total_amended "DELETE" ("/api/tasks/12".toList) NewTodoApp
      ⟨"12".toList, by decide⟩ (by decide)⟩

end TodoModel
